import Mathlib

/-!
# Verification of the Keepa client core (`keepa.py`)

Shallow embedding of the retry/rate-limit transport (`KeepaAPI.request`),
the time-series decoding (`formatted`, `gmdate`, `interpolate`) and the
call-builder validation checks, together with theorems settling the
specification claims.
-/

namespace Keepa

/-! ## Transport model (`KeepaAPI.request`)

One network attempt either raises a transient exception (connection error or
JSON decode error) or yields a parsed response with an HTTP status code and a
decoded body carrying `refillIn` (milliseconds).  A run of `request` is driven
by a finite script of such attempt outcomes; the run returns the final outcome,
the list of sleep durations performed (in seconds, in order), and the number of
network attempts consumed. -/

inductive Attempt where
  | fail : Attempt
  | resp (status : Nat) (refillIn : Nat) : Attempt
deriving DecidableEq, Repr

/-- The fixed `STATUS_CODES` table of `keepa.py`. -/
def STATUS_CODES (status : Nat) : Option String :=
  if status = 400 then some "Bad Request the request was malformed or could not successfully execute."
  else if status = 402 then some "The used API key does not grant access."
  else if status = 405 then some "A request parameter is out of allowed range."
  else if status = 429 then some "You are out of tokens."
  else if status = 500 then some "An unexpected error occurred when executing this request."
  else none

/-- Message of the `KeepaException` raised on an HTTP status outside the table. -/
def unknownStatusMessage (status : Nat) : String :=
  "Unknown status code \"" ++ toString status ++ "\""

/-- Message of the fatal error raised for a non-200, non-429 status. -/
def errorMessage (status : Nat) : String :=
  match STATUS_CODES status with
  | some m => m
  | none => unknownStatusMessage status

inductive Outcome where
  | ok : Outcome
  | transient : Outcome
  | err (msg : String) : Outcome
  | noScript : Outcome
deriving DecidableEq, Repr

/-- The nested retry loops of `KeepaAPI.request`, consuming one scripted
attempt outcome per network call.  `counter` is the transient-retry counter of
the inner loop (reset to 3 on every outer iteration).  Mirrors
`keepa.py:250-277`: on a transient exception the counter is decremented, the
request fails fatally when it reaches zero, otherwise a 30 s sleep precedes the
retry; on a parsed response, 200 succeeds, a 429 sleeps
`ceil(refillIn/1000)` seconds and restarts the outer loop, any other status in
`STATUS_CODES` raises its table message, and an unrecognized status raises an
unknown-status error. -/
def requestLoop : List Attempt → Nat → Outcome × List Nat × Nat
  | [], _ => (.noScript, [], 0)
  | .fail :: rest, counter =>
      if counter - 1 = 0 then (.transient, [], 1)
      else
        let r := requestLoop rest (counter - 1)
        (r.1, 30 :: r.2.1, r.2.2 + 1)
  | .resp status refillIn :: rest, _ =>
      if status = 200 then (.ok, [], 1)
      else
        match STATUS_CODES status with
        | some m =>
            if status = 429 then
              let r := requestLoop rest 3
              (r.1, (refillIn + 999) / 1000 :: r.2.1, r.2.2 + 1)
            else (.err m, [], 1)
        | none => (.err (unknownStatusMessage status), [], 1)

/-- A full `KeepaAPI.request` run: the outer loop starts with a fresh
transient-retry budget of 3. -/
def request (script : List Attempt) : Outcome × List Nat × Nat :=
  requestLoop script 3

/-! ## Time-series decoding (`formatted`, `gmdate`) -/

/-- `decodeTs` translates a raw Keepa minute timestamp to Unix seconds,
as in `keepa.py:77`. -/
def decodeTs (t : Int) : Int := (t + 21564000) * 60

/-- Python's `list[0::2]`: every other element starting from the first. -/
def everyOther : List Int → List Int
  | [] => []
  | [t] => [t]
  | t :: _ :: rest => t :: everyOther rest

/-- The decoded timestamps `[(t + 21564000)*60 for t in csv_data[0::2]]`. -/
def decodedTimestamps (csv : List Int) : List Int :=
  (everyOther csv).map decodeTs

/-- The start index computed by `formatted` when truncating by `mintime`
(`keepa.py:79-84`): Python's `for i, timestamp in enumerate(timestamps): if
timestamp > mintime: break` leaves `i` at the first index whose timestamp
strictly exceeds `mintime` (here `j`, with `j = len` when no timestamp
exceeds), or at the last index when the loop finishes without a break; then
`i = (i - 1) if i else 0`. -/
def startIndexAux (j len : Nat) : Nat :=
  if (if j = len then len - 1 else j) = 0 then 0
  else (if j = len then len - 1 else j) - 1

/-- The start index used by `formatted` to truncate: `0` when `mintime` is
falsy, otherwise `startIndexAux` of the break index of the Python loop. -/
def startIndex (timestamps : List Int) (mintime : Int) : Nat :=
  if mintime ≠ 0 then
    startIndexAux (timestamps.findIdx (fun ts => decide (mintime < ts)))
      timestamps.length
  else 0

/-- `formatted(csv_data, mintime)` from `keepa.py:73-85`. -/
def formatted (csv : List Int) (mintime : Int) : List (Int × Int) :=
  if csv = [] then []
  else
    let timestamps := decodedTimestamps csv
    let values := everyOther csv.tail
    let i := startIndex timestamps mintime
    (timestamps.drop i).zip (values.drop i)

/-- Reference (spec-side) pairing of a raw series: consecutive
`(timestamp, value)` pairs. -/
def pairsOf : List Int → List (Int × Int)
  | t :: v :: rest => (t, v) :: pairsOf rest
  | _ => []

/-- Reference (spec-side) full decoding of a raw series: every pair with its
timestamp decoded. -/
def decodedPairs (csv : List Int) : List (Int × Int) :=
  (pairsOf csv).map (fun p => (decodeTs p.1, p.2))

/-- `gmdate(timestamp)` of `keepa.py:88-92` returns the UTC calendar date;
we represent a calendar date by its day number since the Unix epoch, so the
date of a Unix-seconds timestamp is its floor division by 86400. -/
def gmdate (timestamp : Int) : Int := Int.fdiv timestamp 86400

/-! ## Daily interpolation (`interpolate`, `keepa.py:95-127`)

The Python function sweeps an iterator over `formatted(csv_data)` with a
carried last value.  `collectLoop` is the inner `while True` loop collecting
all further consecutive samples whose date equals the day `date1` being
emitted; it returns the collected values, the final `(date2, value2)` lookahead
state, and the remaining iterator contents.  `interpLoop` is the outer
`while date1 <= today` loop; its fuel argument is exactly the number of
remaining loop iterations, so with fuel `(today + 1 - date1).toNat` it is the
Python loop verbatim.  `today` (the value of `datetime.date.today()` at the
time of the call) is passed as an explicit day-number parameter. -/

def collectLoop (date1 : Int) (dv : Int × Int) :
    List (Int × Int) → List Int × (Int × Int) × List (Int × Int)
  | [] => ([], dv, [])
  | (t2, v2) :: rest =>
      if gmdate t2 = date1 then
        let r := collectLoop date1 (gmdate t2, v2) rest
        (v2 :: r.1, r.2)
      else ([], (gmdate t2, v2), rest)

def interpLoop (func : List Int → Int) (today : Int) :
    Nat → Int → Int → Int → Int → List (Int × Int) → List (Int × Int)
  | 0, _, _, _, _, _ => []
  | Nat.succ fuel, date1, value1, date2, value2, data =>
      if date1 ≤ today then
        if date1 = date2 then
          let r := collectLoop date1 (date2, value2) data
          let v := func (value2 :: r.1)
          (date1, v) :: interpLoop func today fuel (date1 + 1) v r.2.1.1 r.2.1.2 r.2.2
        else
          (date1, value1) :: interpLoop func today fuel (date1 + 1) value1 date2 value2 data
      else []

/-- `interpolate(csv_data, func)` from `keepa.py:95-127`, with the current
date passed explicitly as the day number `today`. -/
def interpolate (csv : List Int) (func : List Int → Int) (today : Int) :
    List (Int × Int) :=
  match formatted csv 0 with
  | [] => []
  | (t1, v1) :: rest =>
      interpLoop func today (today + 1 - gmdate t1).toNat
        (gmdate t1) v1 (gmdate t1) v1 rest

/-- Python's default reducer `min` on a nonempty list of integers (the
algorithm never applies it to an empty list; `0` is a junk value there). -/
def listMin : List Int → Int
  | [] => 0
  | v :: rest => rest.foldl min v

/-! ### Reference grouping used to reason about `interpolate`

`dateValue` decodes a formatted sample to its `(calendar date, value)` pair,
and `chunkBy` groups maximal runs of consecutive pairs sharing a date.
`refLoop` is a lookahead-free restatement of the daily sweep over the grouped
samples; `interpLoop` is proved equivalent to it below. -/

def dateValue (p : Int × Int) : Int × Int := (gmdate p.1, p.2)

def chunkCons (d v : Int) : List (Int × List Int) → List (Int × List Int)
  | [] => [(d, [v])]
  | (d2, vs) :: gs =>
      if d = d2 then (d, v :: vs) :: gs else (d, [v]) :: (d2, vs) :: gs

def chunkBy : List (Int × Int) → List (Int × List Int)
  | [] => []
  | (d, v) :: rest => chunkCons d v (chunkBy rest)

def refLoop (func : List Int → Int) (today : Int) :
    Nat → Int → Int → List (Int × List Int) → List (Int × Int)
  | 0, _, _, _ => []
  | Nat.succ fuel, d, carry, [] =>
      if d ≤ today then (d, carry) :: refLoop func today fuel (d + 1) carry []
      else []
  | Nat.succ fuel, d, carry, (gd, vs) :: gs =>
      if d ≤ today then
        if d = gd then
          (d, func vs) :: refLoop func today fuel (d + 1) (func vs) gs
        else
          (d, carry) :: refLoop func today fuel (d + 1) carry ((gd, vs) :: gs)
      else []

/-! ## Call-builder validation (`KeepaAPI.categories/products/sellers`) -/

/-- The possible shapes of the `category` argument of `KeepaAPI.categories`. -/
inductive CategoryArg where
  | ofString (s : String)
  | ofInt (n : Int)
  | ofList (ids : List Int)
  | otherType
deriving DecidableEq, Repr

/-- The number of category ids denoted by a `category` argument: a string is
split on commas (`category.split(',')` yields one piece per comma plus one),
an integer is a single id, a list contributes one id per element. -/
def categoryIdCount : CategoryArg → Nat
  | .ofString s => s.data.count (',') + 1
  | .ofInt _ => 1
  | .ofList ids => ids.length
  | .otherType => 0

/-- Whether `KeepaAPI.categories` (`keepa.py:173-181`) reaches the network
call: the string branch asserts `len(category) <= 10` — the character count of
the string — the int and list branches perform no check, and any other type
raises `KeepaException`. -/
def categoriesPassesValidation : CategoryArg → Bool
  | .ofString s => decide (s.length ≤ 10)
  | .ofInt _ => true
  | .ofList _ => true
  | .otherType => false

/-- Whether `KeepaAPI.products` (`keepa.py:218-220`) passes its `offers`
check: `if offers: assert 20 <= offers <= 100`. -/
def productsOffersPasses (offers : Option Int) : Bool :=
  match offers with
  | none => true
  | some w => if w ≠ 0 then decide (20 ≤ w ∧ w ≤ 100) else true

/-- Whether `KeepaAPI.sellers` (`keepa.py:235-236`) passes its storefront
check: `if storefront and len(seller_ids) > 1: raise KeepaException(...)`. -/
def sellersPassesValidation (numSellerIds : Nat) (storefrontFlag : Bool) : Bool :=
  !(storefrontFlag && decide (1 < numSellerIds))

/-! ## Transport claims -/

/-- C1: the transient-retry loop attempts the network call at most 3 times:
two transient failures followed by a 200 succeed after exactly two 30 s
backoff sleeps; three consecutive transient failures (whatever is scripted
afterwards) propagate the failure after two 30 s sleeps and exactly 3
attempts, so no fourth attempt is made; in particular a script of 3 or more
consecutive failures always stops at attempt 3. -/
theorem request_transient_retry_cap (rest : List Attempt) (refillIn n : Nat) :
    request (.fail :: .fail :: .resp 200 refillIn :: rest) = (.ok, [30, 30], 3) ∧
    request (.fail :: .fail :: .fail :: rest) = (.transient, [30, 30], 3) ∧
    request (List.replicate (n + 3) .fail) = (.transient, [30, 30], 3) := by
  exact ⟨rfl, rfl, rfl⟩

/-- C2: on an HTTP 429 the transport sleeps `ceil(refillIn/1000)` seconds
(`(refillIn + 999) / 1000` in exact arithmetic; `2` for `refillIn = 1500`),
then restarts the whole request with a fresh transient-retry budget of 3;
the rate-limit loop has no cap (any number of consecutive 429s before a 200
still succeeds) and a 429 is never surfaced as a failure. -/
theorem request_rate_limit_loop (refillIn counter n : Nat) (rest : List Attempt) :
    (requestLoop (.resp 429 refillIn :: rest) counter).1 = (requestLoop rest 3).1 ∧
    (requestLoop (.resp 429 refillIn :: rest) counter).2.1.head? =
      some ((refillIn + 999) / 1000) ∧
    request (.resp 429 1500 :: .resp 200 0 :: rest) = (.ok, [2], 2) ∧
    request (.fail :: .fail :: .resp 429 1500 :: .fail :: .fail :: .resp 200 0 :: rest)
      = (.ok, [30, 30, 2, 30, 30], 6) ∧
    request (List.replicate n (.resp 429 1000) ++ .resp 200 0 :: rest)
      = (.ok, List.replicate n 1, n + 1) := by
  refine ⟨rfl, rfl, rfl, rfl, ?_⟩
  induction n with
  | zero => rfl
  | succ m ih =>
      rw [List.replicate_succ, List.cons_append]
      show (let r := requestLoop (List.replicate m (Attempt.resp 429 1000) ++
        Attempt.resp 200 0 :: rest) 3
        (r.1, (1000 + 999) / 1000 :: r.2.1, r.2.2 + 1)) = _
      rw [show requestLoop (List.replicate m (Attempt.resp 429 1000) ++
        Attempt.resp 200 0 :: rest) 3 = (.ok, List.replicate m 1, m + 1) from ih]
      simp [List.replicate_succ]

/-- C3: a syntactically valid response whose status is neither 200 nor 429
raises a fatal error immediately — no sleep, exactly one attempt, whatever
is scripted afterwards; the message is the `STATUS_CODES` table text for the
recognized statuses 400, 402, 405 and 500 and an unknown-status message
otherwise; a 402 in particular raises immediately with no retry and no
sleep. -/
theorem request_fatal_status (status refillIn counter : Nat) (rest : List Attempt)
    (h200 : status ≠ 200) (h429 : status ≠ 429) :
    requestLoop (.resp status refillIn :: rest) counter
      = (.err (errorMessage status), [], 1) ∧
    errorMessage 400 = "Bad Request the request was malformed or could not successfully execute." ∧
    errorMessage 402 = "The used API key does not grant access." ∧
    errorMessage 405 = "A request parameter is out of allowed range." ∧
    errorMessage 500 = "An unexpected error occurred when executing this request." ∧
    (STATUS_CODES status = none → errorMessage status = unknownStatusMessage status) ∧
    request (.resp 402 refillIn :: rest)
      = (.err "The used API key does not grant access.", [], 1) := by
  refine ⟨?_, rfl, rfl, rfl, rfl, ?_, rfl⟩
  · show (if status = 200 then (Outcome.ok, ([] : List Nat), 1)
      else match STATUS_CODES status with
        | some m =>
            if status = 429 then
              let r := requestLoop rest 3
              (r.1, (refillIn + 999) / 1000 :: r.2.1, r.2.2 + 1)
            else (.err m, [], 1)
        | none => (.err (unknownStatusMessage status), [], 1)) = _
    rw [if_neg h200]
    cases hm : STATUS_CODES status with
    | none => simp [errorMessage, hm]
    | some m => simp [errorMessage, hm, if_neg h429]
  · intro hm
    simp [errorMessage, hm]

/-- Witness for C3 at the concrete status 402. -/
theorem request_fatal_status_witness :
    requestLoop (.resp 402 0 :: []) 3 = (.err (errorMessage 402), [], 1) :=
  (request_fatal_status 402 0 3 [] (by decide) (by decide)).1

/-! ## Validation claim (C9) -/

/-- C9 (code bug, categories part): a `categories` call whose argument is a
list of 11 category ids — more than 10 — passes validation and reaches the
network call, contradicting the claimed pre-network validation error; the
string branch meanwhile asserts on the *character* count, so a string holding
only 6 ids fails validation.  The `offers` range check of `products` and the
storefront batching check of `sellers` do behave as claimed. -/
theorem categories_validation_code_bug :
    categoriesPassesValidation (.ofList [1, 2, 3, 4, 5, 6, 7, 8, 9, 10, 11]) = true ∧
    10 < categoryIdCount (.ofList [1, 2, 3, 4, 5, 6, 7, 8, 9, 10, 11]) ∧
    categoriesPassesValidation (.ofString ("1,2,3,4,5,6")) = false ∧
    categoryIdCount (.ofString ("1,2,3,4,5,6")) = 6 ∧
    (∀ w : Int, 20 ≤ w → w ≤ 100 → productsOffersPasses (some w) = true) ∧
    productsOffersPasses (some 10) = false ∧
    productsOffersPasses (some 101) = false ∧
    (∀ n : Nat, 1 < n → sellersPassesValidation n true = false) := by
  refine ⟨rfl, by decide, by decide, by decide, ?_, by decide, by decide, ?_⟩
  · intro w h1 h2
    simp [productsOffersPasses, h1, h2]
  · intro n hn
    simp [sellersPassesValidation, hn]

/-! ## Structural facts about `formatted` -/

theorem everyOther_cons_tail (v : Int) (rest : List Int) :
    everyOther (v :: rest) = v :: everyOther rest.tail := by
  cases rest <;> rfl

theorem zip_everyOther :
    ∀ csv : List Int,
      ((everyOther csv).map decodeTs).zip (everyOther csv.tail) = decodedPairs csv
  | [] => rfl
  | [_] => rfl
  | t :: v :: rest => by
      show ((t :: everyOther rest).map decodeTs).zip (everyOther (v :: rest)) = _
      rw [everyOther_cons_tail, List.map_cons, List.zip_cons_cons, zip_everyOther rest]
      rfl

theorem everyOther_length :
    ∀ csv : List Int, (everyOther csv).length = (csv.length + 1) / 2
  | [] => rfl
  | [_] => by simp [everyOther]
  | _ :: _ :: rest => by
      show (everyOther rest).length + 1 = _
      rw [everyOther_length rest]
      simp [List.length_cons]
      omega

theorem decodedPairs_length :
    ∀ csv : List Int, (decodedPairs csv).length = csv.length / 2
  | [] => rfl
  | [_] => by simp [decodedPairs, pairsOf]
  | _ :: _ :: rest => by
      show (decodedPairs rest).length + 1 = _
      rw [decodedPairs_length rest]
      simp [List.length_cons]
      omega

theorem startIndexAux_of_ne (j len : Nat) (h : j ≠ len) : startIndexAux j len = j - 1 := by
  have hif : (if j = len then len - 1 else j) = j := if_neg h
  unfold startIndexAux
  rw [hif]
  split <;> omega

theorem startIndexAux_self (len : Nat) : startIndexAux len len = len - 2 := by
  have hif : (if len = len then len - 1 else len) = len - 1 := if_pos rfl
  unfold startIndexAux
  rw [hif]
  split <;> omega

theorem startIndex_zero (timestamps : List Int) : startIndex timestamps 0 = 0 := by
  simp [startIndex]

/-- With `mintime = 0` the truncation is skipped and `formatted` decodes every
pair of the raw series. -/
theorem formatted_zero (csv : List Int) : formatted csv 0 = decodedPairs csv := by
  by_cases h : csv = []
  · subst h; rfl
  · simp only [formatted, if_neg h, startIndex_zero, List.drop_zero]
    exact zip_everyOther csv

/-- `formatted csv mintime` is a suffix of the fully decoded series, starting
at the index the Python loop computes. -/
theorem formatted_eq_drop (csv : List Int) (mintime : Int) :
    formatted csv mintime =
      (formatted csv 0).drop (startIndex (decodedTimestamps csv) mintime) := by
  by_cases h : csv = []
  · subst h; simp [formatted]
  · simp only [formatted, if_neg h, startIndex_zero, List.drop_zero]
    rw [List.zip_eq_zipWith, List.zip_eq_zipWith, List.drop_zipWith]

theorem decodedTimestamps_length_even (csv : List Int) (heven : csv.length % 2 = 0) :
    (decodedTimestamps csv).length = csv.length / 2 := by
  simp only [decodedTimestamps, List.length_map, everyOther_length]
  omega

/-! ## Claims C8, C7, C10 about `formatted` -/

/-- C8: the decoded absolute time of a raw timestamp `t` is
`(t + 21564000) * 60` Unix seconds; `formatted` decodes every timestamp with
exactly this formula (`formatted csv 0` is the full decoded pair sequence),
`formatted [] m = []`, and `formatted csv 0` has `len(csv)/2` entries. -/
theorem formatted_decodes_all (t : Int) (csv : List Int) (mintime : Int) :
    decodeTs t = (t + 21564000) * 60 ∧
    formatted [] mintime = [] ∧
    formatted csv 0 = decodedPairs csv ∧
    (formatted csv 0).length = csv.length / 2 := by
  refine ⟨rfl, by simp [formatted], formatted_zero csv, ?_⟩
  rw [formatted_zero, decodedPairs_length]

/-- C7 counterexample: with the raw series `[0, 10, 0, 20, 1, 30]` — two
samples sharing the timestamp `0` — and `minTimestamp` equal to the decoded
timestamp of element `k = 0`, the result of `formatted` starts at element 1,
i.e. it is not the suffix starting at or before element 0 (the only start
index `m ≤ k = 0` is `m = 0`, and the result differs from that suffix): the
boundary-defining element 0 is skipped. -/
theorem formatted_boundary_skip_counterexample :
    decodeTs 0 = 1293840000 ∧
    formatted [0, 10, 0, 20, 1, 30] 1293840000 = [(1293840000, 20), (1293840060, 30)] ∧
    formatted [0, 10, 0, 20, 1, 30] 0 =
      [(1293840000, 10), (1293840000, 20), (1293840060, 30)] ∧
    ∀ m : Nat, m ≤ 0 →
      formatted [0, 10, 0, 20, 1, 30] 1293840000 ≠
        (formatted [0, 10, 0, 20, 1, 30] 0).drop m := by
  decide

/-- C7 (amended): for a nonempty raw series and nonzero `minTimestamp`,
(1) if `j` is the first index whose decoded timestamp strictly exceeds
`minTimestamp`, `formatted` returns the suffix of the fully decoded sequence
starting at `j` backed up one position clamped to 0; and (2) if the decoded
timestamps are nondecreasing and `minTimestamp` equals the decoded timestamp
of element `k`, where `k` is the LAST index carrying that timestamp, then the
result starts at or before element `k`.  (The original claim, quantifying
over every such `k`, fails when several samples share the boundary
timestamp — see the counterexample.) -/
theorem formatted_truncation (csv : List Int) (mintime : Int)
    (hne : csv ≠ []) (hmt : mintime ≠ 0) :
    (∀ j : Nat, j < (decodedTimestamps csv).length →
        mintime < (decodedTimestamps csv).getD j 0 →
        (∀ l : Nat, l < j → ¬ mintime < (decodedTimestamps csv).getD l 0) →
        formatted csv mintime = (formatted csv 0).drop (j - 1)) ∧
    ((decodedTimestamps csv).Chain' (· ≤ ·) →
      ∀ k : Nat, k < (decodedTimestamps csv).length →
        (decodedTimestamps csv).getD k 0 = mintime →
        (∀ l : Nat, l < (decodedTimestamps csv).length →
            (decodedTimestamps csv).getD l 0 = mintime → l ≤ k) →
        ∃ m : Nat, m ≤ k ∧ formatted csv mintime = (formatted csv 0).drop m) := by
  constructor
  · intro j hj hgt hfirst
    have hfind : (decodedTimestamps csv).findIdx (fun ts => decide (mintime < ts)) = j := by
      rw [List.findIdx_eq hj]
      constructor
      · rw [List.getD_eq_getElem _ _ hj] at hgt
        simpa using hgt
      · intro l hl
        have h2 := hfirst l hl
        rw [List.getD_eq_getElem _ _ (hl.trans hj)] at h2
        simpa using h2
    have hstart : startIndex (decodedTimestamps csv) mintime = j - 1 := by
      simp only [startIndex]
      rw [if_pos hmt, hfind, startIndexAux_of_ne j _ (Nat.ne_of_lt hj)]
    rw [formatted_eq_drop csv mintime, hstart]
  · intro hsorted k hk hkeq hlast
    refine ⟨startIndex (decodedTimestamps csv) mintime, ?_, formatted_eq_drop csv mintime⟩
    have hpw : ∀ i j : Nat, i ≤ j → j < (decodedTimestamps csv).length →
        (decodedTimestamps csv).getD i 0 ≤ (decodedTimestamps csv).getD j 0 := by
      intro i j hij hj
      have hi : i < (decodedTimestamps csv).length := Nat.lt_of_le_of_lt hij hj
      rw [List.getD_eq_getElem _ _ hi, List.getD_eq_getElem _ _ hj]
      rcases Nat.lt_or_ge i j with h | h
      · exact (List.pairwise_iff_getElem.mp (List.chain'_iff_pairwise.mp hsorted))
          i j hi hj h
      · have heq : i = j := Nat.le_antisymm hij h
        subst heq
        exact le_refl _
    by_cases hex : ∃ ts ∈ decodedTimestamps csv, mintime < ts
    · have hexb : ∃ ts ∈ decodedTimestamps csv,
          (fun ts => decide (mintime < ts)) ts = true := by
        rcases hex with ⟨ts, hmem, hlt⟩
        exact ⟨ts, hmem, by simpa using hlt⟩
      have hflt : (decodedTimestamps csv).findIdx (fun ts => decide (mintime < ts)) <
          (decodedTimestamps csv).length := List.findIdx_lt_length_of_exists hexb
      have hfp : mintime < (decodedTimestamps csv).getD
          ((decodedTimestamps csv).findIdx (fun ts => decide (mintime < ts))) 0 := by
        rw [List.getD_eq_getElem _ _ hflt]
        have := @List.findIdx_getElem _ (fun ts => decide (mintime < ts))
          (decodedTimestamps csv) hflt
        simpa using this
      have hkj : k < (decodedTimestamps csv).findIdx (fun ts => decide (mintime < ts)) := by
        by_contra hle
        push_neg at hle
        have hmono := hpw _ k hle hk
        rw [hkeq] at hmono
        exact absurd (lt_of_lt_of_le hfp hmono) (lt_irrefl _)
      have hjk1 : (decodedTimestamps csv).findIdx (fun ts => decide (mintime < ts)) = k + 1 := by
        rcases Nat.lt_or_ge (k + 1)
          ((decodedTimestamps csv).findIdx (fun ts => decide (mintime < ts))) with h | h
        · exfalso
          have hk1len : k + 1 < (decodedTimestamps csv).length := Nat.lt_trans h hflt
          have hnot := @List.not_of_lt_findIdx _ (fun ts => decide (mintime < ts))
            (decodedTimestamps csv) (k + 1) h
          have hle1 : (decodedTimestamps csv).getD (k + 1) 0 ≤ mintime := by
            rw [List.getD_eq_getElem _ _ hk1len]
            simp only [decide_eq_false_iff_not, not_lt] at hnot
            exact hnot
          have hge1 : mintime ≤ (decodedTimestamps csv).getD (k + 1) 0 := by
            have := hpw k (k + 1) (Nat.le_succ k) hk1len
            rw [hkeq] at this
            exact this
          exact absurd (hlast (k + 1) hk1len (le_antisymm hle1 hge1)) (by omega)
        · omega
      have hstart : startIndex (decodedTimestamps csv) mintime = k := by
        simp only [startIndex]
        rw [if_pos hmt, hjk1, startIndexAux_of_ne (k + 1) _ (by omega)]
        omega
      omega
    · push_neg at hex
      have hfall : (decodedTimestamps csv).findIdx (fun ts => decide (mintime < ts)) =
          (decodedTimestamps csv).length := by
        rw [List.findIdx_eq_length]
        intro x hx
        simpa using not_lt.mpr (hex x hx)
      have hlk : (decodedTimestamps csv).length - 1 ≤ k := by
        have hl1 : (decodedTimestamps csv).length - 1 < (decodedTimestamps csv).length := by
          omega
        have hle1 : (decodedTimestamps csv).getD ((decodedTimestamps csv).length - 1) 0
            ≤ mintime := by
          rw [List.getD_eq_getElem _ _ hl1]
          exact hex _ (List.getElem_mem hl1)
        have hge1 : mintime ≤ (decodedTimestamps csv).getD
            ((decodedTimestamps csv).length - 1) 0 := by
          have := hpw k ((decodedTimestamps csv).length - 1) (by omega) hl1
          rw [hkeq] at this
          exact this
        exact hlast _ hl1 (le_antisymm hle1 hge1)
      have hstart : startIndex (decodedTimestamps csv) mintime =
          (decodedTimestamps csv).length - 2 := by
        simp only [startIndex]
        rw [if_pos hmt, hfall, startIndexAux_self]
      omega

/-- Witness for C7 (amended) at concrete inputs: for `[0, 7, 2, 9]` with
`minTimestamp` strictly between the two decoded timestamps the first-exceeding
index is 1 and the whole sequence is kept; with `minTimestamp` equal to the
first (unique) decoded timestamp the result starts at or before element 0. -/
theorem formatted_truncation_witness :
    formatted [0, 7, 2, 9] (decodeTs 1) = (formatted [0, 7, 2, 9] 0).drop (1 - 1) ∧
    ∃ m : Nat, m ≤ 0 ∧
      formatted [0, 7, 2, 9] (decodeTs 0) = (formatted [0, 7, 2, 9] 0).drop m :=
  ⟨(formatted_truncation [0, 7, 2, 9] (decodeTs 1) (by decide) (by decide)).1
      1 (by decide) (by decide) (by decide),
    (formatted_truncation [0, 7, 2, 9] (decodeTs 0) (by decide) (by decide)).2
      (by norm_num [decodedTimestamps, everyOther, decodeTs, List.chain'_cons])
      0 (by decide) (by decide) (by decide)⟩

/-- C10: for an even-length raw series none of whose decoded timestamps
strictly exceeds the nonzero `minTimestamp`, `formatted` returns exactly the
last two decoded pairs when the series has at least two pairs, and the single
pair when it has exactly one. -/
theorem formatted_no_exceeding_cutoff (csv : List Int) (mintime : Int)
    (heven : csv.length % 2 = 0) (hmt : mintime ≠ 0)
    (hall : ∀ ts ∈ decodedTimestamps csv, ts ≤ mintime) :
    (4 ≤ csv.length →
      formatted csv mintime = (formatted csv 0).drop (csv.length / 2 - 2) ∧
      (formatted csv mintime).length = 2) ∧
    (csv.length = 2 → formatted csv mintime = formatted csv 0) := by
  have hfall : (decodedTimestamps csv).findIdx (fun ts => decide (mintime < ts)) =
      (decodedTimestamps csv).length := by
    rw [List.findIdx_eq_length]
    intro x hx
    simpa using not_lt.mpr (hall x hx)
  have hTlen : (decodedTimestamps csv).length = csv.length / 2 :=
    decodedTimestamps_length_even csv heven
  constructor
  · intro h4
    have hstart : startIndex (decodedTimestamps csv) mintime = csv.length / 2 - 2 := by
      simp only [startIndex]
      rw [if_pos hmt, hfall, startIndexAux_self, hTlen]
    constructor
    · rw [formatted_eq_drop csv mintime, hstart]
    · rw [formatted_eq_drop csv mintime, hstart, List.length_drop, formatted_zero,
        decodedPairs_length]
      omega
  · intro h2
    have hstart : startIndex (decodedTimestamps csv) mintime = 0 := by
      simp only [startIndex]
      rw [if_pos hmt, hfall, startIndexAux_self, hTlen]
      omega
    rw [formatted_eq_drop csv mintime, hstart, List.drop_zero]

/-- Witness for C10: `[0, 7, 1, 8, 2, 9]` (three pairs) with the cutoff at its
largest decoded timestamp keeps exactly the last two pairs; a single pair is
kept whole. -/
theorem formatted_no_exceeding_cutoff_witness :
    (formatted [0, 7, 1, 8, 2, 9] (decodeTs 2) =
        (formatted [0, 7, 1, 8, 2, 9] 0).drop (6 / 2 - 2) ∧
      (formatted [0, 7, 1, 8, 2, 9] (decodeTs 2)).length = 2) ∧
    formatted [0, 7] (decodeTs 5) = formatted [0, 7] 0 :=
  ⟨(formatted_no_exceeding_cutoff [0, 7, 1, 8, 2, 9] (decodeTs 2)
        (by decide) (by decide) (by decide)).1 (by decide),
    (formatted_no_exceeding_cutoff [0, 7] (decodeTs 5)
        (by decide) (by decide) (by decide)).2 (by decide)⟩

/-! ## Claim C4: length of the interpolated series -/

theorem interpLoop_length (func : List Int → Int) (today : Int) :
    ∀ (fuel : Nat) (date1 value1 date2 value2 : Int) (data : List (Int × Int)),
      (interpLoop func today fuel date1 value1 date2 value2 data).length =
        min fuel (today + 1 - date1).toNat
  | 0, _, _, _, _, _ => by simp [interpLoop]
  | Nat.succ fuel, date1, value1, date2, value2, data => by
      rw [interpLoop]
      by_cases h : date1 ≤ today
      · rw [if_pos h]
        by_cases h2 : date1 = date2
        · rw [if_pos h2]
          simp only [List.length_cons, interpLoop_length func today fuel]
          omega
        · rw [if_neg h2]
          simp only [List.length_cons, interpLoop_length func today fuel]
          omega
      · rw [if_neg h]
        simp only [List.length_nil]
        omega

/-- C4 counterexample: for the raw series `[0, 5]` — whose single sample
decodes to day 14975 (2011-01-01 UTC) — and a current date of day 14973 two
days earlier, `interpolate` returns the empty sequence, whereas
`(today - firstSampleDate).days + 1 = -1`, so the claimed length formula
fails for this non-empty even-length raw series. -/
theorem interpolate_length_counterexample :
    gmdate (decodeTs 0) = 14975 ∧
    interpolate [0, 5] listMin 14973 = [] ∧
    ¬ (((interpolate [0, 5] listMin 14973).length : Int) =
        14973 - gmdate (decodeTs 0) + 1) := by
  refine ⟨by decide, by decide, ?_⟩
  decide

/-- C4 (amended): `interpolate` of an empty raw series is empty, and for a
non-empty even-length raw series whose first sample's UTC date is on or
before the current date, the output length is exactly
`(today - firstSampleDate) + 1` days.  (When the first sample's date lies
after the current date the output is empty instead — see the
counterexample.) -/
theorem interpolate_length (csv : List Int) (func : List Int → Int) (today : Int)
    (heven : csv.length % 2 = 0) (hne : csv ≠ [])
    (htoday : gmdate (decodeTs (csv.headD 0)) ≤ today) :
    ((interpolate csv func today).length : Int) =
      today - gmdate (decodeTs (csv.headD 0)) + 1 ∧
    interpolate [] func today = [] := by
  refine ⟨?_, rfl⟩
  match csv, hne with
  | [t], _ => simp at heven
  | t :: v :: rest, _ =>
      have hfmt : formatted (t :: v :: rest) 0 =
          (decodeTs t, v) :: decodedPairs rest := formatted_zero _
      rw [interpolate, hfmt]
      simp only [List.headD_cons]
      rw [interpLoop_length]
      simp only [List.headD_cons] at htoday
      omega

/-- Witness for C4 (amended): the single raw pair `[0, 5]` decodes to day
14975; with the current date at day 14976 the output has `14976 - 14975 + 1
= 2` entries. -/
theorem interpolate_length_witness :
    ((interpolate [0, 5] listMin 14976).length : Int) =
      14976 - gmdate (decodeTs (([0, 5] : List Int).headD 0)) + 1 ∧
    interpolate [] listMin 14976 = [] :=
  interpolate_length [0, 5] listMin 14976 (by decide) (by decide) (by decide)

/-! ## Structural facts about `chunkBy` -/

theorem chunkBy_cons (a b : Int) (l : List (Int × Int)) :
    ∃ vs gs, chunkBy ((a, b) :: l) = (a, vs) :: gs := by
  rw [chunkBy]
  cases h : chunkBy l with
  | nil => exact ⟨[b], [], rfl⟩
  | cons g gs =>
      obtain ⟨d2, vs2⟩ := g
      by_cases hab : a = d2
      · rw [chunkCons, if_pos hab]
        exact ⟨b :: vs2, gs, rfl⟩
      · rw [chunkCons, if_neg hab]
        exact ⟨[b], (d2, vs2) :: gs, rfl⟩

theorem chunkBy_head_fst :
    ∀ l : List (Int × Int), ((chunkBy l).head?).map Prod.fst = (l.head?).map Prod.fst
  | [] => rfl
  | (a, b) :: t => by
      obtain ⟨vs, gs, h⟩ := chunkBy_cons a b t
      rw [h]
      rfl

theorem chunkBy_dates_subset :
    ∀ l : List (Int × Int), ∀ a ∈ (chunkBy l).map Prod.fst, a ∈ l.map Prod.fst := by
  intro l
  induction l with
  | nil => intro a ha; simpa [chunkBy] using ha
  | cons p rest ih =>
      obtain ⟨d, v⟩ := p
      intro a ha
      rw [chunkBy] at ha
      cases h : chunkBy rest with
      | nil =>
          rw [h, chunkCons] at ha
          simp only [List.map_cons, List.map_nil, List.mem_cons, List.not_mem_nil,
            or_false] at ha
          simp [ha]
      | cons g gs =>
          obtain ⟨d2, vs2⟩ := g
          rw [h, chunkCons] at ha
          by_cases hab : d = d2
          · rw [if_pos hab] at ha
            simp only [List.map_cons, List.mem_cons] at ha
            rcases ha with ha | ha
            · simp [ha]
            · have : a ∈ (chunkBy rest).map Prod.fst := by
                rw [h]
                simp only [List.map_cons, List.mem_cons]
                right
                exact ha
              have := ih a this
              simp only [List.map_cons, List.mem_cons]
              right
              exact this
          · rw [if_neg hab] at ha
            simp only [List.map_cons, List.mem_cons] at ha
            rcases ha with ha | ha
            · simp [ha]
            · have : a ∈ (chunkBy rest).map Prod.fst := by
                rw [h]
                simp only [List.map_cons, List.mem_cons]
                exact ha
              have := ih a this
              simp only [List.map_cons, List.mem_cons]
              right
              exact this

theorem chunkBy_sorted :
    ∀ l : List (Int × Int), (l.map Prod.fst).Chain' (· ≤ ·) →
      ((chunkBy l).map Prod.fst).Chain' (· < ·) := by
  intro l
  induction l with
  | nil => intro _; simp [chunkBy]
  | cons p rest ih =>
      obtain ⟨a, b⟩ := p
      intro hs
      rw [List.map_cons, List.chain'_cons'] at hs
      obtain ⟨hhead, hrest⟩ := hs
      rw [chunkBy]
      cases h : chunkBy rest with
      | nil => simp [chunkCons]
      | cons g gs =>
          obtain ⟨d2, vs2⟩ := g
          have ihr := ih hrest
          rw [h, List.map_cons] at ihr
          have hd2 : (rest.head?).map Prod.fst = some d2 := by
            have := chunkBy_head_fst rest
            rw [h] at this
            exact this.symm
          rw [chunkCons]
          by_cases hab : a = d2
          · rw [if_pos hab]
            rw [List.map_cons]
            rw [hab]
            exact ihr
          · rw [if_neg hab]
            rw [List.map_cons, List.map_cons, List.chain'_cons]
            refine ⟨?_, ihr⟩
            have hle : a ≤ d2 := by
              apply hhead
              rw [List.head?_map]
              exact hd2
            omega

/-- For a date-sorted pair list, the values of the chunk carrying date `gd`
are exactly the values of all pairs whose date is `gd`. -/
theorem chunkBy_filter :
    ∀ (l : List (Int × Int)) (gd : Int) (vs : List Int),
      (l.map Prod.fst).Chain' (· ≤ ·) → (gd, vs) ∈ chunkBy l →
      vs = (l.filter (fun p => decide (p.1 = gd))).map Prod.snd := by
  intro l
  induction l with
  | nil => intro gd vs _ hmem; simp [chunkBy] at hmem
  | cons p rest ih =>
      obtain ⟨a, b⟩ := p
      intro gd vs hs hmem
      rw [List.map_cons, List.chain'_cons'] at hs
      obtain ⟨hhead, hrest⟩ := hs
      rw [chunkBy] at hmem
      cases h : chunkBy rest with
      | nil =>
          have hrnil : rest = [] := by
            cases rest with
            | nil => rfl
            | cons q t =>
                obtain ⟨q1, q2⟩ := q
                obtain ⟨vs2, gs2, hq⟩ := chunkBy_cons q1 q2 t
                rw [hq] at h
                exact absurd h (by simp)
          subst hrnil
          rw [h, chunkCons, List.mem_singleton, Prod.mk.injEq] at hmem
          obtain ⟨h1, h2⟩ := hmem
          subst h1
          subst h2
          simp
      | cons g gs =>
          obtain ⟨d2, vs2⟩ := g
          rw [h, chunkCons] at hmem
          have hd2head : (rest.head?).map Prod.fst = some d2 := by
            have := chunkBy_head_fst rest
            rw [h] at this
            exact this.symm
          have haled2 : a ≤ d2 := by
            apply hhead
            rw [List.head?_map]
            exact hd2head
          have hall : ∀ z ∈ rest.map Prod.fst, d2 ≤ z := by
            cases rest with
            | nil => simp at hd2head
            | cons r0 t =>
                have hr0 : r0.1 = d2 := by simpa using hd2head
                intro z hz
                rw [List.map_cons, List.mem_cons] at hz
                rcases hz with hz | hz
                · omega
                · have hpw := List.chain'_iff_pairwise.mp hrest
                  rw [List.map_cons, List.pairwise_cons] at hpw
                  have := hpw.1 z hz
                  omega
          by_cases hab : a = d2
          · rw [if_pos hab] at hmem
            rw [List.mem_cons] at hmem
            rcases hmem with hmem | hmem
            · rw [Prod.mk.injEq] at hmem
              obtain ⟨h1, h2⟩ := hmem
              subst h1
              subst h2
              have ihv : vs2 = (rest.filter (fun p => decide (p.1 = gd))).map Prod.snd := by
                apply ih gd vs2 hrest
                rw [h, hab]
                exact List.mem_cons_self _ _
              rw [List.filter_cons_of_pos (by simp)]
              rw [List.map_cons, ihv]
            · have hmemr : (gd, vs) ∈ chunkBy rest := by
                rw [h]
                exact List.mem_cons_of_mem _ hmem
              have ihv := ih gd vs hrest hmemr
              have hsort2 := chunkBy_sorted rest hrest
              rw [h, List.map_cons] at hsort2
              have hd2gd : d2 < gd := by
                have hpw2 := List.chain'_iff_pairwise.mp hsort2
                rw [List.pairwise_cons] at hpw2
                exact hpw2.1 gd (by
                  have := List.mem_map_of_mem Prod.fst hmem
                  simpa using this)
              rw [List.filter_cons_of_neg (by simp; omega)]
              exact ihv
          · rw [if_neg hab] at hmem
            rw [List.mem_cons] at hmem
            rcases hmem with hmem | hmem
            · rw [Prod.mk.injEq] at hmem
              obtain ⟨h1, h2⟩ := hmem
              subst h1
              subst h2
              rw [List.filter_cons_of_pos (by simp)]
              have hfilnil : rest.filter (fun p => decide (p.1 = gd)) = [] := by
                rw [List.filter_eq_nil_iff]
                intro q hq
                have := hall q.1 (List.mem_map_of_mem Prod.fst hq)
                simp
                omega
              rw [hfilnil]
              rfl
            · have hmemr : (gd, vs) ∈ chunkBy rest := by
                rw [h]
                exact hmem
              have ihv := ih gd vs hrest hmemr
              have hgd : gd ∈ rest.map Prod.fst := by
                apply chunkBy_dates_subset rest gd
                have := List.mem_map_of_mem Prod.fst hmemr
                simpa using this
              have hd2gd : d2 ≤ gd := hall gd hgd
              rw [List.filter_cons_of_neg (by simp; omega)]
              exact ihv

/-- The inner collection loop of `interpolate` consumes exactly the leading
same-date chunk: if the final lookahead date equals `d` the iterator was
exhausted and the whole list was one chunk; otherwise the chunking proceeds
with the lookahead pair followed by the remaining data. -/
theorem collectLoop_chunkBy :
    ∀ (data : List (Int × Int)) (d v2 : Int),
      ((collectLoop d (d, v2) data).2.1.1 = d →
          chunkBy ((d, v2) :: data.map dateValue)
            = [(d, v2 :: (collectLoop d (d, v2) data).1)] ∧
          (collectLoop d (d, v2) data).2.2 = []) ∧
      ((collectLoop d (d, v2) data).2.1.1 ≠ d →
          chunkBy ((d, v2) :: data.map dateValue)
            = (d, v2 :: (collectLoop d (d, v2) data).1) ::
                chunkBy ((collectLoop d (d, v2) data).2.1 ::
                  (collectLoop d (d, v2) data).2.2.map dateValue))
  | [], d, v2 => by
      constructor
      · intro _
        exact ⟨rfl, rfl⟩
      · intro hne
        exact absurd rfl hne
  | (t, w) :: rest, d, v2 => by
      by_cases hd : gmdate t = d
      · have hcl : collectLoop d (d, v2) ((t, w) :: rest)
            = (w :: (collectLoop d (d, w) rest).1, (collectLoop d (d, w) rest).2) := by
          rw [collectLoop, if_pos hd, hd]
        have hmap : ((t, w) :: rest).map dateValue = (d, w) :: rest.map dateValue := by
          simp only [List.map_cons, dateValue, hd]
        have ih := collectLoop_chunkBy rest d w
        by_cases hx : (collectLoop d (d, w) rest).2.1.1 = d
        · obtain ⟨hch, hrem⟩ := ih.1 hx
          constructor
          · intro _
            constructor
            · rw [hmap, chunkBy, hch, chunkCons, if_pos rfl, hcl]
            · rw [hcl]
              exact hrem
          · intro hne
            rw [hcl] at hne
            exact absurd hx hne
        · have hch := ih.2 hx
          constructor
          · intro heq
            rw [hcl] at heq
            exact absurd heq hx
          · intro _
            rw [hmap, chunkBy, hch, chunkCons, if_pos rfl, hcl]
      · have hcl : collectLoop d (d, v2) ((t, w) :: rest) = ([], (gmdate t, w), rest) := by
          rw [collectLoop, if_neg hd]
        constructor
        · intro hx
          rw [hcl] at hx
          exact absurd hx hd
        · intro _
          rw [hcl]
          have hmap : ((t, w) :: rest).map dateValue = (gmdate t, w) :: rest.map dateValue := by
            simp only [List.map_cons, dateValue]
          rw [hmap, chunkBy]
          obtain ⟨vs, gs, hc⟩ := chunkBy_cons (gmdate t) w (rest.map dateValue)
          rw [hc, chunkCons, if_neg (fun hh => hd hh.symm), ← hc]

/-! ## `refLoop` unfolding lemmas and equivalence with `interpLoop` -/

theorem refLoop_of_not_le (func : List Int → Int) (today : Int) (fuel : Nat)
    (d carry : Int) (gs : List (Int × List Int)) (h : ¬ d ≤ today) :
    refLoop func today fuel d carry gs = [] := by
  cases fuel with
  | zero => rfl
  | succ fuel =>
      cases gs with
      | nil => rw [refLoop, if_neg h]
      | cons g gs =>
          obtain ⟨gd, vs⟩ := g
          rw [refLoop, if_neg h]

theorem refLoop_succ_cons (func : List Int → Int) (today : Int) (fuel : Nat)
    (d carry gd : Int) (vs : List Int) (gs : List (Int × List Int)) (h : d ≤ today) :
    refLoop func today (fuel + 1) d carry ((gd, vs) :: gs) =
      if d = gd then (d, func vs) :: refLoop func today fuel (d + 1) (func vs) gs
      else (d, carry) :: refLoop func today fuel (d + 1) carry ((gd, vs) :: gs) := by
  rw [refLoop, if_pos h]

theorem refLoop_succ_nil (func : List Int → Int) (today : Int) (fuel : Nat)
    (d carry : Int) (h : d ≤ today) :
    refLoop func today (fuel + 1) d carry [] =
      (d, carry) :: refLoop func today fuel (d + 1) carry [] := by
  rw [refLoop, if_pos h]

/-- The lookahead sweep of `interpolate` computes the same output as the
grouped reference sweep: the lookahead pair `(date2, value2)` together with
the unread data corresponds to the chunked remaining groups, and once the
iterator is exhausted (lookahead date strictly in the past) to no groups at
all. -/
theorem interpLoop_eq_refLoop (func : List Int → Int) (today : Int) :
    ∀ (fuel : Nat) (date1 value1 date2 value2 : Int) (data : List (Int × Int))
      (groups : List (Int × List Int)),
      (groups = chunkBy ((date2, value2) :: data.map dateValue) ∨
        (data = [] ∧ date2 < date1 ∧ groups = [])) →
      interpLoop func today fuel date1 value1 date2 value2 data =
        refLoop func today fuel date1 value1 groups
  | 0, _, _, _, _, _, _, _ => by rw [interpLoop, refLoop]
  | Nat.succ fuel, date1, value1, date2, value2, data, groups, hrel => by
      by_cases h : date1 ≤ today
      · rcases hrel with hgs | ⟨hdata, hlt, hgs⟩
        · by_cases he : date1 = date2
          · subst he
            rw [interpLoop, if_pos h, if_pos rfl]
            show (date1, func (value2 :: (collectLoop date1 (date1, value2) data).1)) ::
                interpLoop func today fuel (date1 + 1)
                  (func (value2 :: (collectLoop date1 (date1, value2) data).1))
                  (collectLoop date1 (date1, value2) data).2.1.1
                  (collectLoop date1 (date1, value2) data).2.1.2
                  (collectLoop date1 (date1, value2) data).2.2 = _
            have hL := collectLoop_chunkBy data date1 value2
            by_cases hx : (collectLoop date1 (date1, value2) data).2.1.1 = date1
            · obtain ⟨hch, hrem⟩ := hL.1 hx
              rw [hgs, hch, refLoop_succ_cons func today fuel date1 value1 date1
                (value2 :: (collectLoop date1 (date1, value2) data).1) [] h, if_pos rfl]
              congr 1
              apply interpLoop_eq_refLoop func today fuel
              right
              refine ⟨hrem, ?_, rfl⟩
              rw [hx]
              omega
            · have hch := hL.2 hx
              rw [hgs, hch, refLoop_succ_cons func today fuel date1 value1 date1
                (value2 :: (collectLoop date1 (date1, value2) data).1)
                (chunkBy ((collectLoop date1 (date1, value2) data).2.1 ::
                  (collectLoop date1 (date1, value2) data).2.2.map dateValue)) h, if_pos rfl]
              congr 1
              apply interpLoop_eq_refLoop func today fuel
              left
              rfl
          · rw [interpLoop, if_pos h, if_neg he]
            obtain ⟨vs, gs, hc⟩ := chunkBy_cons date2 value2 (data.map dateValue)
            rw [hgs, hc, refLoop_succ_cons func today fuel date1 value1 date2 vs gs h,
              if_neg he]
            congr 1
            apply interpLoop_eq_refLoop func today fuel
            left
            rw [← hc]
        · subst hdata
          subst hgs
          have he : date1 ≠ date2 := by omega
          rw [interpLoop, if_pos h, if_neg he, refLoop_succ_nil func today fuel date1 value1 h]
          congr 1
          apply interpLoop_eq_refLoop func today fuel
          right
          exact ⟨rfl, by omega, rfl⟩
      · rw [interpLoop, if_neg h, refLoop_of_not_le func today _ _ _ _ h]

/-- One emission step of `refLoop` below `today`: the emitted entry carries
date `d`; the remaining groups only lose dates; and unless a group is due at
`d` the emitted value is the carry. -/
theorem refLoop_succ_step (func : List Int → Int) (today : Int) (fuel : Nat)
    (d carry : Int) (gs : List (Int × List Int)) (h : d ≤ today) :
    ∃ x gs', refLoop func today (fuel + 1) d carry gs =
        (d, x) :: refLoop func today fuel (d + 1) x gs' ∧
      (∀ a ∈ gs'.map Prod.fst, a ∈ gs.map Prod.fst) ∧
      (d ∉ gs.map Prod.fst → x = carry) := by
  cases gs with
  | nil =>
      exact ⟨carry, [], refLoop_succ_nil func today fuel d carry h, by simp, fun _ => rfl⟩
  | cons g gs2 =>
      obtain ⟨gd, vs⟩ := g
      by_cases he : d = gd
      · refine ⟨func vs, gs2, ?_, ?_, ?_⟩
        · rw [refLoop_succ_cons func today fuel d carry gd vs gs2 h, if_pos he]
        · intro a ha
          simp only [List.map_cons, List.mem_cons]
          right
          exact ha
        · intro hnot
          exfalso
          apply hnot
          simp [he]
      · refine ⟨carry, (gd, vs) :: gs2, ?_, fun a ha => ha, fun _ => rfl⟩
        rw [refLoop_succ_cons func today fuel d carry gd vs gs2 h, if_neg he]

/-- Every entry of a `refLoop` run carries the date `d + i` at index `i`. -/
theorem refLoop_get?_fst (func : List Int → Int) (today : Int) :
    ∀ (fuel : Nat) (d carry : Int) (gs : List (Int × List Int)) (i : Nat) (p : Int × Int),
      (refLoop func today fuel d carry gs).get? i = some p → p.1 = d + i
  | 0, d, carry, gs, i, p => by
      intro h
      simp [refLoop] at h
  | Nat.succ fuel, d, carry, gs, i, p => by
      intro hget
      by_cases h : d ≤ today
      · obtain ⟨x, gs', hstep, _, _⟩ := refLoop_succ_step func today fuel d carry gs h
        rw [hstep] at hget
        cases i with
        | zero =>
            rw [List.get?_cons_zero] at hget
            obtain rfl : (d, x) = p := by injection hget
            simp
        | succ i =>
            rw [List.get?_cons_succ] at hget
            have := refLoop_get?_fst func today fuel (d + 1) x gs' i p hget
            omega
      · rw [refLoop_of_not_le func today _ _ _ _ h] at hget
        simp at hget

/-- An entry whose date is not among the remaining group dates repeats the
previous entry's value. -/
theorem refLoop_carry (func : List Int → Int) (today : Int) :
    ∀ (fuel : Nat) (d carry : Int) (gs : List (Int × List Int)) (i : Nat) (p q : Int × Int),
      (refLoop func today fuel d carry gs).get? i = some p →
      (refLoop func today fuel d carry gs).get? (i + 1) = some q →
      q.1 ∉ gs.map Prod.fst → q.2 = p.2
  | 0, d, carry, gs, i, p, q => by
      intro hp _ _
      simp [refLoop] at hp
  | Nat.succ fuel, d, carry, gs, i, p, q => by
      intro hp hq hnot
      by_cases h : d ≤ today
      · obtain ⟨x, gs', hstep, hsub, _⟩ := refLoop_succ_step func today fuel d carry gs h
        rw [hstep] at hp hq
        cases i with
        | zero =>
            rw [List.get?_cons_zero] at hp
            obtain rfl : (d, x) = p := by injection hp
            rw [List.get?_cons_succ] at hq
            cases fuel with
            | zero => simp [refLoop] at hq
            | succ fuel2 =>
                by_cases h2 : d + 1 ≤ today
                · obtain ⟨y, gs'', hstep2, _, hy⟩ :=
                    refLoop_succ_step func today fuel2 (d + 1) x gs' h2
                  rw [hstep2, List.get?_cons_zero] at hq
                  obtain rfl : (d + 1, y) = q := by injection hq
                  have hyx : y = x := by
                    apply hy
                    intro hmem
                    exact hnot (hsub _ hmem)
                  simp [hyx]
                · rw [refLoop_of_not_le func today _ _ _ _ h2] at hq
                  simp at hq
        | succ i =>
            rw [List.get?_cons_succ] at hp hq
            exact refLoop_carry func today fuel (d + 1) x gs' i p q hp hq
              (fun hmem => hnot (hsub _ hmem))
      · rw [refLoop_of_not_le func today _ _ _ _ h] at hp
        simp at hp

/-- The entry of a `refLoop` run at a due group's date is the reduced group
value. -/
theorem refLoop_at_group (func : List Int → Int) (today : Int) :
    ∀ (fuel : Nat) (d carry : Int) (gs1 : List (Int × List Int)) (gd : Int)
      (vs : List Int) (gs2 : List (Int × List Int)),
      (∀ g ∈ gs1, d ≤ g.1 ∧ g.1 < gd) →
      ((gs1.map Prod.fst).Pairwise (· < ·)) →
      d ≤ gd → gd ≤ today → (gd - d).toNat < fuel →
      (refLoop func today fuel d carry (gs1 ++ (gd, vs) :: gs2)).get? (gd - d).toNat
        = some (gd, func vs)
  | 0, d, carry, gs1, gd, vs, gs2 => by
      intro _ _ _ _ hfuel
      omega
  | Nat.succ fuel, d, carry, gs1, gd, vs, gs2 => by
      intro hgs1 hpw hdgd hgdt hfuel
      have hd : d ≤ today := le_trans hdgd hgdt
      cases gs1 with
      | nil =>
          by_cases he : d = gd
          · subst he
            rw [List.nil_append, refLoop_succ_cons func today fuel d carry d vs gs2 hd,
              if_pos rfl]
            have hidx : (d - d).toNat = 0 := by omega
            rw [hidx, List.get?_cons_zero]
          · have hlt : d < gd := by omega
            rw [List.nil_append, refLoop_succ_cons func today fuel d carry gd vs gs2 hd,
              if_neg he]
            have hidx : (gd - d).toNat = (gd - (d + 1)).toNat + 1 := by omega
            rw [hidx, List.get?_cons_succ]
            exact refLoop_at_group func today fuel (d + 1) carry [] gd vs gs2
              (by simp) (by simp) (by omega) hgdt (by omega)
      | cons g0 gs1' =>
          obtain ⟨g0d, g0vs⟩ := g0
          have hg0 := hgs1 (g0d, g0vs) (List.mem_cons_self _ _)
          rw [List.map_cons, List.pairwise_cons] at hpw
          rw [List.cons_append]
          by_cases he : d = g0d
          · subst he
            rw [refLoop_succ_cons func today fuel d carry d g0vs (gs1' ++ (gd, vs) :: gs2)
              hd, if_pos rfl]
            have hlt : d < gd := hg0.2
            have hidx : (gd - d).toNat = (gd - (d + 1)).toNat + 1 := by omega
            rw [hidx, List.get?_cons_succ]
            apply refLoop_at_group func today fuel (d + 1) (func g0vs) gs1' gd vs gs2
            · intro g hg
              have hdg : (d : Int) < g.1 := hpw.1 g.1 (List.mem_map_of_mem Prod.fst hg)
              exact ⟨by omega, (hgs1 g (List.mem_cons_of_mem _ hg)).2⟩
            · exact hpw.2
            · omega
            · exact hgdt
            · omega
          · have hlt : d < g0d := by
              have := hg0.1
              omega
            have hltgd : d < gd := by
              have := hg0.2
              omega
            rw [refLoop_succ_cons func today fuel d carry g0d g0vs (gs1' ++ (gd, vs) :: gs2)
              hd, if_neg he]
            have hidx : (gd - d).toNat = (gd - (d + 1)).toNat + 1 := by omega
            rw [hidx, List.get?_cons_succ]
            rw [← List.cons_append]
            apply refLoop_at_group func today fuel (d + 1) carry ((g0d, g0vs) :: gs1') gd vs gs2
            · intro g hg
              rcases List.mem_cons.mp hg with hgeq | hg
              · subst hgeq
                exact ⟨by omega, hg0.2⟩
              · have hdg : g0d < g.1 := hpw.1 g.1 (List.mem_map_of_mem Prod.fst hg)
                exact ⟨by omega, (hgs1 g (List.mem_cons_of_mem _ hg)).2⟩
            · rw [List.map_cons, List.pairwise_cons]
              exact hpw
            · omega
            · exact hgdt
            · omega

theorem chunkBy_eq_nil {l : List (Int × Int)} (h : chunkBy l = []) : l = [] := by
  cases l with
  | nil => rfl
  | cons q t =>
      obtain ⟨q1, q2⟩ := q
      obtain ⟨vs, gs, hq⟩ := chunkBy_cons q1 q2 t
      rw [hq] at h
      exact absurd h (by simp)

theorem chunkBy_dates_superset :
    ∀ l : List (Int × Int), ∀ a ∈ l.map Prod.fst, a ∈ (chunkBy l).map Prod.fst := by
  intro l
  induction l with
  | nil => intro a ha; simp at ha
  | cons p rest ih =>
      obtain ⟨d, v⟩ := p
      intro a ha
      rw [List.map_cons, List.mem_cons] at ha
      rw [chunkBy]
      cases h : chunkBy rest with
      | nil =>
          have hrnil : rest = [] := chunkBy_eq_nil h
          subst hrnil
          rcases ha with ha | ha
          · simp [chunkCons, ha]
          · simp at ha
      | cons g gs =>
          obtain ⟨d2, vs2⟩ := g
          rw [chunkCons]
          by_cases hab : d = d2
          · rw [if_pos hab]
            rcases ha with ha | ha
            · simp [ha]
            · have := ih a ha
              rw [h, List.map_cons, List.mem_cons] at this
              rcases this with hthis | hthis
              · simp [hthis, hab]
              · simp only [List.map_cons, List.mem_cons]
                right
                exact hthis
          · rw [if_neg hab]
            rcases ha with ha | ha
            · simp [ha]
            · have := ih a ha
              rw [h] at this
              simp only [List.map_cons, List.mem_cons] at this ⊢
              right
              exact this

/-- `interpolate` on a nonempty formatted series equals the grouped reference
sweep starting at the first sample's date. -/
theorem interpolate_eq_refLoop (csv : List Int) (func : List Int → Int) (today : Int)
    (t1 v1 : Int) (rest : List (Int × Int))
    (hfmt : formatted csv 0 = (t1, v1) :: rest) :
    interpolate csv func today =
      refLoop func today (today + 1 - gmdate t1).toNat (gmdate t1) v1
        (chunkBy ((formatted csv 0).map dateValue)) := by
  rw [interpolate, hfmt]
  show interpLoop func today (today + 1 - gmdate t1).toNat (gmdate t1) v1
      (gmdate t1) v1 rest = _
  apply interpLoop_eq_refLoop
  left
  simp only [List.map_cons, dateValue]

theorem interpolate_length_eq (csv : List Int) (func : List Int → Int) (today : Int)
    (t1 v1 : Int) (rest : List (Int × Int))
    (hfmt : formatted csv 0 = (t1, v1) :: rest) :
    (interpolate csv func today).length = (today + 1 - gmdate t1).toNat := by
  rw [interpolate, hfmt]
  show (interpLoop func today (today + 1 - gmdate t1).toNat (gmdate t1) v1
      (gmdate t1) v1 rest).length = _
  rw [interpLoop_length]
  omega

/-! ## Claim C5: same-day samples collapse through the reducer -/

/-- C5: when the decoded dates of the formatted series are nondecreasing (the
server's delivery order) and `d` is a sample date no later than today, the
output of `interpolate` contains exactly one entry dated `d`, and its value is
`func` applied to the values of all samples whose date is `d` (these are
consecutive in the series).  With the default reducer `min`, a day with raw
values `[10, 3, 7]` yields `3` — see the witness. -/
theorem interpolate_same_day_collapse (csv : List Int) (func : List Int → Int)
    (today d : Int)
    (hsorted : ((formatted csv 0).map (fun p => gmdate p.1)).Chain' (· ≤ ·))
    (hd : d ∈ (formatted csv 0).map (fun p => gmdate p.1))
    (hdt : d ≤ today) :
    (d, func (((formatted csv 0).filter (fun p => decide (gmdate p.1 = d))).map Prod.snd))
      ∈ interpolate csv func today ∧
    ∀ p ∈ interpolate csv func today, p.1 = d →
      p = (d, func (((formatted csv 0).filter
            (fun p => decide (gmdate p.1 = d))).map Prod.snd)) := by
  cases hfmt : formatted csv 0 with
  | nil => rw [hfmt] at hd; simp at hd
  | cons hd0 rest =>
  obtain ⟨t1, v1⟩ := hd0
  have hLfst : ((formatted csv 0).map dateValue).map Prod.fst =
      (formatted csv 0).map (fun p => gmdate p.1) := by
    rw [List.map_map]
    rfl
  have hsorted' : (((formatted csv 0).map dateValue).map Prod.fst).Chain' (· ≤ ·) := by
    rw [hLfst]
    exact hsorted
  have hchain := chunkBy_sorted _ hsorted'
  have hpw := List.chain'_iff_pairwise.mp hchain
  have hddates : d ∈ (chunkBy ((formatted csv 0).map dateValue)).map Prod.fst := by
    apply chunkBy_dates_superset
    rw [hLfst]
    exact hd
  obtain ⟨g, hgmem, hgfst⟩ := List.mem_map.mp hddates
  obtain ⟨gd', vsd⟩ := g
  obtain rfl : gd' = d := hgfst
  have hvs := chunkBy_filter _ gd' vsd hsorted' hgmem
  have hfil : (((formatted csv 0).map dateValue).filter
        (fun p => decide (p.1 = gd'))).map Prod.snd =
      ((formatted csv 0).filter (fun p => decide (gmdate p.1 = gd'))).map Prod.snd := by
    rw [List.filter_map, List.map_map]
    rfl
  have hval : vsd = ((formatted csv 0).filter
      (fun p => decide (gmdate p.1 = gd'))).map Prod.snd := hvs.trans hfil
  obtain ⟨gs1, gs2, hsplit⟩ := List.append_of_mem hgmem
  have hL : (formatted csv 0).map dateValue = (gmdate t1, v1) :: rest.map dateValue := by
    rw [hfmt]
    simp only [List.map_cons, dateValue]
  have hall_ge : ∀ g ∈ chunkBy ((formatted csv 0).map dateValue), gmdate t1 ≤ g.1 := by
    obtain ⟨vs0, gs0, hcL⟩ := chunkBy_cons (gmdate t1) v1 (rest.map dateValue)
    intro g hg
    rw [hL, hcL] at hg
    rcases List.mem_cons.mp hg with hg | hg
    · subst hg
      exact le_refl _
    · have hpwL := hpw
      rw [hL, hcL, List.map_cons, List.pairwise_cons] at hpwL
      have := hpwL.1 g.1 (List.mem_map_of_mem Prod.fst hg)
      omega
  have hd1d : gmdate t1 ≤ gd' := hall_ge (gd', vsd) hgmem
  have hpwapp := hpw
  rw [hsplit, List.map_append, List.map_cons, List.pairwise_append] at hpwapp
  have hgs1lt : ∀ g ∈ gs1, gmdate t1 ≤ g.1 ∧ g.1 < gd' := by
    intro g hg
    constructor
    · apply hall_ge
      rw [hsplit]
      exact List.mem_append_left _ hg
    · exact hpwapp.2.2 g.1 (List.mem_map_of_mem Prod.fst hg) gd' (List.mem_cons_self _ _)
  have hgs1pw : (gs1.map Prod.fst).Pairwise (· < ·) := hpwapp.1
  have happly := refLoop_at_group func today ((today + 1 - gmdate t1).toNat)
    (gmdate t1) v1 gs1 gd' vsd gs2 hgs1lt hgs1pw hd1d hdt (by omega)
  have heq := interpolate_eq_refLoop csv func today t1 v1 rest hfmt
  rw [hsplit] at heq
  constructor
  · rw [← hfmt, ← hval]
    rw [heq]
    exact List.get?_mem happly
  · intro p hp hpd
    obtain ⟨i, hi⟩ := List.mem_iff_get?.mp hp
    have hfst : p.1 = gmdate t1 + i := by
      apply refLoop_get?_fst func today _ _ _ _ i p
      rw [← heq]
      exact hi
    have hieq : i = (gd' - gmdate t1).toNat := by omega
    subst hieq
    rw [heq] at hi
    rw [hi] at happly
    obtain rfl : p = (gd', func vsd) := by injection happly
    rw [← hfmt, ← hval]

/-- Witness for C5: three raw samples on day 14975 with values `[10, 3, 7]`
collapse, under the default reducer `min`, to the single emitted value `3`. -/
theorem interpolate_same_day_collapse_witness :
    (14975, listMin (((formatted [0, 10, 0, 3, 0, 7] 0).filter
        (fun p => decide (gmdate p.1 = 14975))).map Prod.snd))
      ∈ interpolate [0, 10, 0, 3, 0, 7] listMin 14975 ∧
    listMin [10, 3, 7] = 3 ∧
    interpolate [0, 10, 0, 3, 0, 7] listMin 14975 = [(14975, 3)] := by
  refine ⟨(interpolate_same_day_collapse [0, 10, 0, 3, 0, 7] listMin 14975 14975
      ?_ (by decide) (by decide)).1, by decide, by decide⟩
  have h : formatted [0, 10, 0, 3, 0, 7] 0
      = [(1293840000, 10), (1293840000, 3), (1293840000, 7)] := by decide
  rw [h]
  simp only [List.map_cons, List.map_nil, List.chain'_cons, List.chain'_singleton, and_true]
  decide

/-! ## Claim C6: gap days repeat the previous emitted value -/

/-- C6: an emitted day `x` that carries no raw sample of its own (and is not
the first day) repeats the previous day's emitted value unchanged: the
entries at positions `x - 1` and `x` of the daily grid share the same
value. -/
theorem interpolate_holds_value_forward (csv : List Int) (func : List Int → Int)
    (today x t1 v1 : Int) (rest : List (Int × Int))
    (hfmt : formatted csv 0 = (t1, v1) :: rest)
    (hx1 : gmdate t1 < x) (hx2 : x ≤ today)
    (hno : x ∉ (formatted csv 0).map (fun p => gmdate p.1)) :
    ∃ v, (interpolate csv func today).get? ((x - 1 - gmdate t1).toNat)
        = some (x - 1, v) ∧
      (interpolate csv func today).get? ((x - gmdate t1).toNat) = some (x, v) := by
  have hlen := interpolate_length_eq csv func today t1 v1 rest hfmt
  have heq := interpolate_eq_refLoop csv func today t1 v1 rest hfmt
  have hi1 : (x - 1 - gmdate t1).toNat < (interpolate csv func today).length := by
    rw [hlen]
    omega
  have hi2 : (x - gmdate t1).toNat < (interpolate csv func today).length := by
    rw [hlen]
    omega
  have hsucc : (x - gmdate t1).toNat = (x - 1 - gmdate t1).toNat + 1 := by omega
  obtain ⟨p, hp⟩ : ∃ p, (interpolate csv func today).get?
      ((x - 1 - gmdate t1).toNat) = some p := ⟨_, List.get?_eq_get hi1⟩
  obtain ⟨q, hq⟩ : ∃ q, (interpolate csv func today).get?
      ((x - gmdate t1).toNat) = some q := ⟨_, List.get?_eq_get hi2⟩
  have hpfst : p.1 = gmdate t1 + (x - 1 - gmdate t1).toNat := by
    apply refLoop_get?_fst func today _ _ _ _ _ p
    rw [← heq]
    exact hp
  have hqfst : q.1 = gmdate t1 + (x - gmdate t1).toNat := by
    apply refLoop_get?_fst func today _ _ _ _ _ q
    rw [← heq]
    exact hq
  have hp1 : p.1 = x - 1 := by omega
  have hq1 : q.1 = x := by omega
  have hnogrp : q.1 ∉ (chunkBy ((formatted csv 0).map dateValue)).map Prod.fst := by
    rw [hq1]
    intro hmem
    apply hno
    have hsub := chunkBy_dates_subset _ _ hmem
    rw [List.map_map] at hsub
    exact hsub
  rw [hsucc] at hq
  have hqp : q.2 = p.2 := by
    apply refLoop_carry func today _ _ _ _ ((x - 1 - gmdate t1).toNat) p q
    · rw [← heq]
      exact hp
    · rw [← heq]
      exact hq
    · exact hnogrp
  obtain ⟨pa, pb⟩ := p
  obtain ⟨qa, qb⟩ := q
  simp only at hp1 hq1 hqp
  subst hp1
  subst hq1
  subst hqp
  exact ⟨qb, hp, by rw [hsucc]; exact hq⟩

/-- Witness for C6: raw series `[0, 100, 2880, 50]` has samples on days 14975
and 14977 only; the gap day 14976 repeats day 14975's emitted value `100`. -/
theorem interpolate_holds_value_forward_witness :
    ∃ v, (interpolate [0, 100, 2880, 50] listMin 14977).get?
        ((14976 - 1 - gmdate 1293840000).toNat) = some (14976 - 1, v) ∧
      (interpolate [0, 100, 2880, 50] listMin 14977).get?
        ((14976 - gmdate 1293840000).toNat) = some (14976, v) :=
  interpolate_holds_value_forward [0, 100, 2880, 50] listMin 14977 14976 1293840000 100
    [(1294012800, 50)] (by decide) (by decide) (by decide) (by decide)

end Keepa
